import Mathlib

/-!
# Verification of the DSRT engine (DSRT-Docs/Quantum)

Shallow embedding of the parts of the DSRT game-engine SDK that the
specification's testable properties talk about:

* the generic dynamic array's growth policy (`DSRT/Engine/Core/DSRTArray.h`);
* `Engine::Update`'s frame-delta handling (`src/public/Engine.cpp`);
* `Vector3`'s guarded scalar division (`src/public/Math/Vector3.cpp`);
* the ECS core (entity table with generation counters, archetype store,
  hierarchy cascade, system scheduler, deferred command buffer).  The
  repository ships only the declarations of `World`/`Entity` (World.h,
  Entity.h contain no implementations), so the ECS core is modelled from
  the specification's own description (§3–§5 of the spec).

Machine `size_t` values are modelled as `Nat` with explicit reduction
modulo `2^64` where overflow matters; `float` values carry no rounding in
the modelled code paths (comparisons, assignments, one reciprocal), so
they are modelled as `ℚ`.
-/

namespace DSRT

/-! ## Array growth policy (`DSRTArray.h`, real code)

`Array<T>::CalculateGrowth` (DSRTArray.h:602-608):

```
SizeType CalculateGrowth(SizeType newSize) const {
    SizeType geometric = m_capacity + m_capacity / 2;
    if (geometric < newSize) {
        return newSize;
    }
    return geometric;
}
```

`SizeType` is `size_t` (64-bit); the addition wraps modulo `2^64`.
-/

/-- The modulus of the C++ `size_t` type on the 64-bit targets the engine
supports. -/
def sizeTMod : Nat := 2 ^ 64

/-- `Array<T>::CalculateGrowth` from `DSRTArray.h`.  `m_capacity` is the
array's current capacity, `newSize` the requested size; `size_t`
arithmetic wraps modulo `2^64`. -/
def CalculateGrowth (m_capacity newSize : Nat) : Nat :=
  let geometric := (m_capacity + m_capacity / 2) % sizeTMod
  if geometric < newSize then newSize else geometric

/-! ## `Vector3` scalar division (`Math/Vector3.cpp`, real code)

`operator/` (Vector3.cpp:25-31) and `operator/=` (Vector3.cpp:58-68) guard
against a near-zero divisor with `std::fabs(scalar) < EPSILON`
(`EPSILON = 1e-6f`, Vector3.h:240) and otherwise multiply componentwise by
`1.0f / scalar`.  The guarded path performs no rounding arithmetic and the
quotient path is a single reciprocal-and-multiply, modelled exactly
over `ℚ`. -/

/-- The three-component vector of `Math/Vector3.h`, components modelled
as `ℚ`. -/
structure Vector3 where
  x : ℚ
  y : ℚ
  z : ℚ
  deriving DecidableEq, Repr

/-- `Vector3::EPSILON` (Vector3.h:240), the tolerance `1e-6f`. -/
def EPSILON : ℚ := 1 / 1000000

/-- `Vector3::operator/(float scalar)` (Vector3.cpp:25-31). -/
def Vector3.divScalar (v : Vector3) (scalar : ℚ) : Vector3 :=
  if |scalar| < EPSILON then
    ⟨0, 0, 0⟩
  else
    let invScalar := 1 / scalar
    ⟨v.x * invScalar, v.y * invScalar, v.z * invScalar⟩

/-- `Vector3::operator/=(float scalar)` (Vector3.cpp:58-68): the in-place
variant; returns the mutated vector. -/
def Vector3.divAssign (v : Vector3) (scalar : ℚ) : Vector3 :=
  if |scalar| < EPSILON then
    { v with x := 0, y := 0, z := 0 }
  else
    let invScalar := 1 / scalar
    { v with x := v.x * invScalar, y := v.y * invScalar, z := v.z * invScalar }

/-! ## `Engine::Update` frame-delta handling (`Engine.cpp`, real code)

`Engine::Update(float deltaTime)` (Engine.cpp:195-236): when the engine is
initialized it computes a frame delta (from the argument when positive,
otherwise from the wall clock since the last frame), clamps it to
`MAX_DELTA_TIME = 0.1f` (Engine.cpp:208), and forwards the clamped value to
`resourceManager->Update` and `defaultWorld->Update`.  The wall-clock
duration is an input of the model. -/

/-- `MAX_DELTA_TIME` from `Engine.cpp:208` (100 ms). -/
def MAX_DELTA_TIME : ℚ := 1 / 10

/-- What one call of `Engine::Update` does with the frame delta:
the value stored into `s_State.deltaTime`, and the values passed to
`resourceManager->Update` / `defaultWorld->Update` (absent when the
subsystem pointer is null or the engine is uninitialized). -/
structure EngineUpdateTrace where
  stateDelta : ℚ
  resourceDelta : Option ℚ
  worldDelta : Option ℚ
  deriving DecidableEq, Repr

/-- The delta computation of `Engine::Update` (Engine.cpp:199-211): take
the argument when positive, the wall-clock duration otherwise, then clamp
to `MAX_DELTA_TIME`. -/
def clampDelta (deltaTime wallDelta : ℚ) : ℚ :=
  let d0 := if deltaTime ≤ 0 then wallDelta else deltaTime
  if d0 > MAX_DELTA_TIME then MAX_DELTA_TIME else d0

/-- `Engine::Update(deltaTime)` (Engine.cpp:195-236) restricted to its
frame-delta dataflow.  `wallDelta` is `now - s_State.lastFrameTime` in
seconds; `prevStateDelta` is the prior `s_State.deltaTime`. -/
def Engine.update (initialized hasResource hasWorld : Bool)
    (deltaTime wallDelta prevStateDelta : ℚ) : EngineUpdateTrace :=
  if !initialized then
    ⟨prevStateDelta, none, none⟩
  else
    let d := clampDelta deltaTime wallDelta
    ⟨d, if hasResource then some d else none, if hasWorld then some d else none⟩

end DSRT

namespace DSRT

/-! ## Theorems for the real-code claims -/

/-- **C2.** The growth policy of the engine's generic dynamic array: for
every `Array` with current capacity `c` and every requested size `n > c`
(both representable in `size_t`, and with the geometric term not
overflowing), the capacity chosen by `Array::CalculateGrowth` — used by
`PushBack`, `EmplaceBack`, `Insert` and `Resize` — equals
`max(n, c + c/2)`, `c/2` being integer division. -/
theorem calculateGrowth_eq_max (c n : Nat)
    (hc : c < sizeTMod) (hn : n < sizeTMod)
    (hgeo : c + c / 2 < sizeTMod) (hreq : c < n) :
    CalculateGrowth c n = max n (c + c / 2) := by
  unfold CalculateGrowth
  simp only [Nat.mod_eq_of_lt hgeo]
  rcases lt_or_ge (c + c / 2) n with h | h
  · simp [h, Nat.max_eq_left (le_of_lt h)]
  · simp [not_lt.mpr h, Nat.max_eq_right h]

/-- Witness for **C2** at `c = 10`, `n = 12`: the chosen capacity is
`max 12 15 = 15`. -/
theorem calculateGrowth_eq_max_witness :
    CalculateGrowth 10 12 = max 12 (10 + 10 / 2) :=
  calculateGrowth_eq_max 10 12 (by decide) (by decide) (by decide) (by decide)

/-- **C10.** `Vector3` division is guarded against near-zero divisors: for
every `v : Vector3` and scalar `s` with `|s| < EPSILON`, both `v / s` and
`v /= s` produce the zero vector instead of dividing; for `|s| ≥ EPSILON`
both compute the componentwise quotient (via multiplication by `1/s`,
which over the model's exact arithmetic is the quotient itself), and the
in-place form agrees with the pure operator. -/
theorem vector3_div_guard (v : Vector3) (s : ℚ) :
    (|s| < EPSILON →
      v.divScalar s = ⟨0, 0, 0⟩ ∧ v.divAssign s = ⟨0, 0, 0⟩) ∧
    (EPSILON ≤ |s| →
      v.divScalar s = ⟨v.x / s, v.y / s, v.z / s⟩ ∧
      v.divAssign s = v.divScalar s) := by
  constructor
  · intro h
    constructor
    · simp [Vector3.divScalar, h]
    · simp [Vector3.divAssign, h]
  · intro h
    have h' : ¬ |s| < EPSILON := not_lt.mpr h
    constructor
    · simp [Vector3.divScalar, h', div_eq_mul_inv, one_div]
    · simp [Vector3.divScalar, Vector3.divAssign, h']

/-- Witness for **C10** at `v = (1, 2, 3)`: dividing by the near-zero
scalar `1/2000000` yields the zero vector, and dividing by `2` yields the
componentwise quotient `(1/2, 1, 3/2)`. -/
theorem vector3_div_guard_witness :
    (Vector3.divScalar ⟨1, 2, 3⟩ (1 / 2000000) = ⟨0, 0, 0⟩) ∧
    (Vector3.divScalar ⟨1, 2, 3⟩ 2 = ⟨1 / 2, 2 / 2, 3 / 2⟩) := by
  have h1 : |(1 : ℚ) / 2000000| < EPSILON := by
    rw [abs_of_pos (by norm_num)]; norm_num [EPSILON]
  have h2 : EPSILON ≤ |(2 : ℚ)| := by
    rw [abs_of_pos (by norm_num)]; norm_num [EPSILON]
  exact ⟨((vector3_div_guard ⟨1, 2, 3⟩ (1 / 2000000)).1 h1).1,
         ((vector3_div_guard ⟨1, 2, 3⟩ 2).2 h2).1⟩

/-- The clamp in `Engine::Update` is a `min` against `MAX_DELTA_TIME`. -/
theorem clampDelta_eq_min (deltaTime wallDelta : ℚ) :
    clampDelta deltaTime wallDelta =
      min (if deltaTime ≤ 0 then wallDelta else deltaTime) MAX_DELTA_TIME := by
  unfold clampDelta
  dsimp only
  rcases le_or_lt (if deltaTime ≤ 0 then wallDelta else deltaTime) MAX_DELTA_TIME with h | h
  · rw [if_neg (not_lt.mpr h), min_eq_left h]
  · rw [if_pos h, min_eq_right (le_of_lt h)]

/-- The clamped delta never exceeds `MAX_DELTA_TIME`. -/
theorem clampDelta_le (deltaTime wallDelta : ℚ) :
    clampDelta deltaTime wallDelta ≤ MAX_DELTA_TIME := by
  rw [clampDelta_eq_min]; exact min_le_right _ _

/-- **C9.** `Engine::Update` clamps the frame delta: on an initialized
engine, the delta forwarded to the resource manager and the default world
(and stored in `s_State.deltaTime`) is at most `0.1` seconds; a positive
`deltaTime` argument is used as given but capped at `0.1`, and a
`deltaTime ≤ 0` is replaced by the wall-clock time since the last frame,
also capped at `0.1`. -/
theorem engine_update_clamps (hasResource hasWorld : Bool)
    (deltaTime wallDelta prevStateDelta : ℚ) :
    (Engine.update true hasResource hasWorld deltaTime wallDelta
        prevStateDelta).stateDelta ≤ MAX_DELTA_TIME ∧
    (∀ d, (Engine.update true hasResource hasWorld deltaTime wallDelta
        prevStateDelta).resourceDelta = some d → d ≤ MAX_DELTA_TIME) ∧
    (∀ d, (Engine.update true hasResource hasWorld deltaTime wallDelta
        prevStateDelta).worldDelta = some d → d ≤ MAX_DELTA_TIME) ∧
    (0 < deltaTime →
      (Engine.update true hasResource hasWorld deltaTime wallDelta
        prevStateDelta).stateDelta = min deltaTime MAX_DELTA_TIME) ∧
    (deltaTime ≤ 0 →
      (Engine.update true hasResource hasWorld deltaTime wallDelta
        prevStateDelta).stateDelta = min wallDelta MAX_DELTA_TIME) := by
  have hupd : Engine.update true hasResource hasWorld deltaTime wallDelta prevStateDelta =
      ⟨clampDelta deltaTime wallDelta,
        if hasResource then some (clampDelta deltaTime wallDelta) else none,
        if hasWorld then some (clampDelta deltaTime wallDelta) else none⟩ := rfl
  rw [hupd]
  refine ⟨clampDelta_le _ _, ?_, ?_, ?_, ?_⟩
  · intro d hd
    cases hasResource with
    | false => simp at hd
    | true =>
        simp only [if_true] at hd
        cases Option.some.inj hd
        exact clampDelta_le _ _
  · intro d hd
    cases hasWorld with
    | false => simp at hd
    | true =>
        simp only [if_true] at hd
        cases Option.some.inj hd
        exact clampDelta_le _ _
  · intro hpos
    rw [clampDelta_eq_min, if_neg (not_le.mpr hpos)]
  · intro hnp
    rw [clampDelta_eq_min, if_pos hnp]

/-- Witness for **C9** at `deltaTime = 7`, `wallDelta = 1/50`: the
forwarded delta is clamped to `1/10 = min 7 (1/10)`. -/
theorem engine_update_clamps_witness :
    (Engine.update true true true 7 (1 / 50) 0).stateDelta ≤ MAX_DELTA_TIME ∧
    (Engine.update true true true 7 (1 / 50) 0).stateDelta = min 7 MAX_DELTA_TIME := by
  have h := engine_update_clamps true true 7 (1 / 50) 0
  exact ⟨h.1, h.2.2.2.1 (by norm_num)⟩

/-! ## The ECS core (spec-modelled)

The repository declares the ECS in `include/DSRT/Scene/World.h` and
`include/DSRT/Scene/Entity.h` but ships no implementation of
`CreateEntity` / `DestroyEntity` / `GetEntity` / `Update` / `Render` /
`FindOrCreateArchetype` or of the `Entity` component operations (the
headers end at the declarations; no `World.cpp`/`Entity.cpp` exists).
The definitions below are therefore modelled from the specification's
description of the ECS core (spec §3 Data Model, §4 Component Design,
§5 Concurrency, §7 Error Handling). -/

/-- The ECS error taxonomy of spec §7. -/
inductive ECSError where
  | staleHandle
  | unknownType
  | invalidSignature
  | cycleDetected
  | capacityExceeded
  deriving DecidableEq, Repr

/-- Modelled from the spec: `EntityId` (§3), "opaque 64-bit value =
(index: u32, generation: u32)"; missing from src — `World.h` only keeps a
`uint64_t` id and never implements its management.  The two fields are
kept separate; `EntityId.pack` gives the packed 64-bit value. -/
structure EntityId where
  index : Nat
  generation : Nat
  deriving DecidableEq, Repr

/-- The packed 64-bit value `(index << 32) | generation` of an
`EntityId`. -/
def EntityId.pack (e : EntityId) : Nat := e.index * 2 ^ 32 + e.generation

/-- Modelled from the spec: one Entity Table slot (§3, §4.3) — the stored
generation counter and whether the slot currently holds a live entity
(`live = false` once the index has been returned to the free list).  The
`{archetypeRef, row}` payload of a slot is carried by the archetype-store
model further below; the entity-lifecycle claims only concern lookup
success and failure. -/
structure Slot where
  generation : Nat
  live : Bool
  deriving DecidableEq, Repr

/-- Modelled from the spec: the Entity Table (§4.3), "the only source of
truth mapping EntityId → current location", with its slot array and free
list; missing from src (`World.h` declares `GetEntity`/`DestroyEntity`
and the `m_NextEntityId` counter but implements none of them). -/
structure EntityTable where
  slots : List Slot
  freeList : List Nat
  deriving DecidableEq, Repr

/-- The generation stored at slot `i` (0 when `i` is out of range). -/
def EntityTable.genAt (t : EntityTable) (i : Nat) : Nat :=
  (t.slots[i]?.map Slot.generation).getD 0

/-- Modelled from the spec: `Create()` (§4.3) — "pops a free index (or
appends a new one if none free), sets generation from the slot's stored
generation", returning the new `EntityId` (new slots start at
generation 0, §3). -/
def EntityTable.create (t : EntityTable) : EntityTable × EntityId :=
  match t.freeList with
  | [] => (⟨t.slots ++ [⟨0, true⟩], []⟩, ⟨t.slots.length, 0⟩)
  | i :: rest =>
      let g := t.genAt i
      (⟨t.slots.set i ⟨g, true⟩, rest⟩, ⟨i, g⟩)

/-- Modelled from the spec: `Resolve(EntityId)` (§4.3) — fails with
`StaleHandle` when the index is out of range or the generation does not
match the slot's current generation (or the slot is free). -/
def EntityTable.resolve (t : EntityTable) (e : EntityId) : Except ECSError Unit :=
  match t.slots[e.index]? with
  | some s =>
      if s.generation = e.generation ∧ s.live = true then .ok () else .error .staleHandle
  | none => .error .staleHandle

/-- Modelled from the spec: `Destroy(EntityId)` (§4.3) — same
`StaleHandle` guard as `Resolve`; on success bumps the slot's generation
and returns the index to the free list. -/
def EntityTable.destroy (t : EntityTable) (e : EntityId) : Except ECSError EntityTable :=
  match t.slots[e.index]? with
  | some s =>
      if s.generation = e.generation ∧ s.live = true then
        .ok ⟨t.slots.set e.index ⟨s.generation + 1, false⟩, e.index :: t.freeList⟩
      else .error .staleHandle
  | none => .error .staleHandle

/-- An entity-table operation issued by client code after some point in
time: create a fresh entity, or destroy a given handle. -/
inductive TableOp where
  | create
  | destroy (e : EntityId)
  deriving DecidableEq, Repr

/-- One operation applied to the table, together with the list of ids the
operation handed out (failed destroys leave the table unchanged). -/
def EntityTable.applyOp (t : EntityTable) : TableOp → EntityTable × List EntityId
  | .create => ((t.create).1, [(t.create).2])
  | .destroy e =>
      match t.destroy e with
      | .ok t' => (t', [])
      | .error _ => (t, [])

/-- A whole sequence of later operations: the resulting table and every
id returned by a create along the way. -/
def EntityTable.run (t : EntityTable) : List TableOp → EntityTable × List EntityId
  | [] => (t, [])
  | op :: ops =>
      let s := t.applyOp op
      let r := s.1.run ops
      (r.1, s.2 ++ r.2)

/-- A handle is stale for a table: its slot exists but has moved past the
handle's generation.  `Destroy` establishes this and every later
operation preserves it. -/
def EntityTable.Stale (t : EntityTable) (e : EntityId) : Prop :=
  e.index < t.slots.length ∧ e.generation < t.genAt e.index

/-- Table `t'` extends `t`: no slot is lost and no generation counter
moves backwards. -/
def EntityTable.Progress (t t' : EntityTable) : Prop :=
  t.slots.length ≤ t'.slots.length ∧ ∀ i, t.genAt i ≤ t'.genAt i

theorem EntityTable.Progress.rfl (t : EntityTable) : t.Progress t :=
  ⟨le_refl _, fun _ => le_refl _⟩

theorem EntityTable.Progress.trans {t t' t'' : EntityTable}
    (h : t.Progress t') (h' : t'.Progress t'') : t.Progress t'' :=
  ⟨le_trans h.1 h'.1, fun i => le_trans (h.2 i) (h'.2 i)⟩

/-- The generation of slot `i` in a raw slot list (0 when out of
range). -/
def slotGen (l : List Slot) (i : Nat) : Nat := (l[i]?.map Slot.generation).getD 0

theorem slotGen_append_le (l : List Slot) (x : Slot) (i : Nat) :
    slotGen l i ≤ slotGen (l ++ [x]) i := by
  unfold slotGen
  rcases lt_or_ge i l.length with h | h
  · rw [List.getElem?_append_left h]
  · rw [List.getElem?_eq_none h]
    simp

theorem slotGen_set_le (l : List Slot) (i j : Nat) (s : Slot)
    (hg : slotGen l i ≤ s.generation) : slotGen l j ≤ slotGen (l.set i s) j := by
  by_cases hij : i = j
  · subst hij
    rcases lt_or_ge i l.length with h | h
    · unfold slotGen
      rw [List.getElem?_set_eq_of_lt _ h]
      simpa [slotGen] using hg
    · rw [List.set_eq_of_length_le h]
  · unfold slotGen
    rw [List.getElem?_set_ne hij]

theorem EntityTable.create_progress (t : EntityTable) : t.Progress (t.create).1 := by
  unfold EntityTable.create
  cases hf : t.freeList with
  | nil => exact ⟨by simp, fun i => slotGen_append_le t.slots ⟨0, true⟩ i⟩
  | cons j rest =>
      exact ⟨by simp, fun i => slotGen_set_le t.slots j i _ (le_refl _)⟩

/-- A successful `Destroy` takes exactly one shape: the slot existed,
matched the handle, and the result bumps its generation and free-lists
the index. -/
theorem EntityTable.destroy_ok_cases {t t' : EntityTable} {e : EntityId}
    (h : t.destroy e = .ok t') :
    ∃ s, t.slots[e.index]? = some s ∧ s.generation = e.generation ∧ s.live = true ∧
      t' = ⟨t.slots.set e.index ⟨s.generation + 1, false⟩, e.index :: t.freeList⟩ := by
  unfold EntityTable.destroy at h
  split at h
  · rename_i s hs
    split at h
    · rename_i hc
      exact ⟨s, hs, hc.1, hc.2, (Except.ok.inj h).symm⟩
    · cases h
  · cases h

theorem EntityTable.destroy_progress {t t' : EntityTable} {e : EntityId}
    (h : t.destroy e = .ok t') : t.Progress t' := by
  obtain ⟨s, hs, _, _, rfl⟩ := EntityTable.destroy_ok_cases h
  refine ⟨by simp, fun i => ?_⟩
  apply slotGen_set_le
  unfold slotGen
  rw [hs]
  simp

theorem EntityTable.applyOp_progress (t : EntityTable) (op : TableOp) :
    t.Progress (t.applyOp op).1 := by
  cases op with
  | create => exact t.create_progress
  | destroy e =>
      dsimp only [EntityTable.applyOp]
      cases hd : t.destroy e with
      | ok t' => exact EntityTable.destroy_progress hd
      | error _ => exact EntityTable.Progress.rfl t

theorem EntityTable.run_progress (t : EntityTable) (ops : List TableOp) :
    t.Progress (t.run ops).1 := by
  induction ops generalizing t with
  | nil => exact EntityTable.Progress.rfl t
  | cons op ops ih =>
      exact (t.applyOp_progress op).trans (ih (t.applyOp op).1)

theorem EntityTable.Stale.mono {t t' : EntityTable} {e : EntityId}
    (hp : t.Progress t') (hs : t.Stale e) : t'.Stale e :=
  ⟨lt_of_lt_of_le hs.1 hp.1, lt_of_lt_of_le hs.2 (hp.2 e.index)⟩

theorem EntityTable.Stale.resolve_fails {t : EntityTable} {e : EntityId}
    (hs : t.Stale e) : t.resolve e = .error .staleHandle := by
  obtain ⟨hlen, hgen⟩ := hs
  unfold EntityTable.resolve
  split
  · rename_i s hidx
    have hge : t.genAt e.index = s.generation := by
      unfold EntityTable.genAt
      rw [hidx]
      rfl
    have hne : ¬ (s.generation = e.generation ∧ s.live = true) := by
      intro hc
      rw [hge, hc.1] at hgen
      exact absurd hgen (lt_irrefl _)
    rw [if_neg hne]
  · rfl

theorem EntityTable.destroy_stale {t t' : EntityTable} {e : EntityId}
    (h : t.destroy e = .ok t') : t'.Stale e := by
  obtain ⟨s, hs, hg, _, rfl⟩ := EntityTable.destroy_ok_cases h
  have hlt : e.index < t.slots.length := (List.getElem?_eq_some.mp hs).1
  refine ⟨by simpa using hlt, ?_⟩
  show e.generation < slotGen (t.slots.set e.index ⟨s.generation + 1, false⟩) e.index
  unfold slotGen
  rw [List.getElem?_set_eq_of_lt _ hlt]
  simp [← hg]

/-- The id returned by `Create()`: a brand-new index at generation 0, or
the head of the free list at its stored generation. -/
theorem EntityTable.create_spec (t : EntityTable) :
    ((t.create).2 = ⟨t.slots.length, 0⟩ ∧ t.freeList = []) ∨
    ∃ j rest, t.freeList = j :: rest ∧ (t.create).2 = ⟨j, t.genAt j⟩ := by
  unfold EntityTable.create
  cases hf : t.freeList with
  | nil => exact Or.inl ⟨rfl, rfl⟩
  | cons j rest => exact Or.inr ⟨j, rest, rfl, rfl⟩

theorem EntityTable.create_ne_of_stale {t : EntityTable} {e : EntityId}
    (hs : t.Stale e) : (t.create).2 ≠ e := by
  rcases EntityTable.create_spec t with ⟨hid, _⟩ | ⟨j, rest, _, hid⟩
  · intro hc
    rw [hid] at hc
    obtain ⟨h1, _⟩ := hs
    have hidx := congrArg EntityId.index hc
    dsimp at hidx
    rw [← hidx] at h1
    exact absurd h1 (lt_irrefl _)
  · intro hc
    rw [hid] at hc
    obtain ⟨_, h2⟩ := hs
    have hidx := congrArg EntityId.index hc
    have hgen := congrArg EntityId.generation hc
    dsimp at hidx hgen
    rw [hidx] at hgen
    rw [← hgen] at h2
    exact absurd h2 (lt_irrefl _)

theorem EntityTable.run_creates_ne {t : EntityTable} {e : EntityId}
    (hs : t.Stale e) (ops : List TableOp) :
    ∀ e2 ∈ (t.run ops).2, e2 ≠ e := by
  induction ops generalizing t with
  | nil => intro e2 h; cases h
  | cons op ops ih =>
      intro e2 h
      rw [show (t.run (op :: ops)).2 =
        (t.applyOp op).2 ++ (((t.applyOp op).1).run ops).2 from rfl] at h
      rcases List.mem_append.mp h with h1 | h1
      · cases op with
        | create =>
            rw [show (t.applyOp TableOp.create).2 = [(t.create).2] from rfl] at h1
            rcases List.mem_singleton.mp h1 with rfl
            exact EntityTable.create_ne_of_stale hs
        | destroy e' =>
            dsimp only [EntityTable.applyOp] at h1
            revert h1
            cases t.destroy e' with
            | ok t'' => intro h1; simp at h1
            | error err => intro h1; simp at h1
      · exact ih (hs.mono (t.applyOp_progress op)) _ h1

/-- Packing `(index, generation)` into the 64-bit value is injective as
long as generations fit in 32 bits. -/
theorem EntityId.pack_inj {e1 e2 : EntityId}
    (h1 : e1.generation < 2 ^ 32) (h2 : e2.generation < 2 ^ 32)
    (hp : e1.pack = e2.pack) : e1 = e2 := by
  unfold EntityId.pack at hp
  have hidx : e1.index = e2.index := by
    have d1 : (e1.index * 2 ^ 32 + e1.generation) / 2 ^ 32 = e1.index := by
      rw [Nat.mul_comm, Nat.mul_add_div (by positivity), Nat.div_eq_of_lt h1, Nat.add_zero]
    have d2 : (e2.index * 2 ^ 32 + e2.generation) / 2 ^ 32 = e2.index := by
      rw [Nat.mul_comm, Nat.mul_add_div (by positivity), Nat.div_eq_of_lt h2, Nat.add_zero]
    rw [← d1, ← d2, hp]
  have hgen : e1.generation = e2.generation := by
    rw [hidx] at hp
    exact Nat.add_left_cancel hp
  cases e1; cases e2
  simp_all

end DSRT

namespace DSRT

/-- **C1.** Generation safety of entity handles: after a successful
`Destroy(e)`, resolving `e` fails with `StaleHandle` — immediately and
after any further sequence of create/destroy operations — and every
entity id returned by any later `Create()` differs from `e`, in the full
64-bit packed value whenever both generations are in `u32` range. -/
theorem entity_generation_safety (t t' : EntityTable) (e : EntityId)
    (hdestroy : t.destroy e = .ok t') (ops : List TableOp) :
    t'.resolve e = .error .staleHandle ∧
    ((t'.run ops).1).resolve e = .error .staleHandle ∧
    ∀ e2 ∈ (t'.run ops).2, e2 ≠ e ∧
      (e.generation < 2 ^ 32 → e2.generation < 2 ^ 32 → e2.pack ≠ e.pack) := by
  have hst : t'.Stale e := EntityTable.destroy_stale hdestroy
  refine ⟨hst.resolve_fails, ?_, ?_⟩
  · exact (hst.mono (t'.run_progress ops)).resolve_fails
  · intro e2 h2
    have hne := EntityTable.run_creates_ne hst ops e2 h2
    exact ⟨hne, fun hge hge2 hp => hne (EntityId.pack_inj hge2 hge hp)⟩

/-- Witness for **C1**: in a fresh world, create entity `(0,0)`, destroy
it, then create again; the new id is `(0,1)`, lookups of `(0,0)` fail and
the packed values differ. -/
theorem entity_generation_safety_witness :
    (EntityTable.resolve ⟨[⟨1, false⟩], [0]⟩ ⟨0, 0⟩ = .error .staleHandle) ∧
    (EntityId.mk 0 1 ≠ EntityId.mk 0 0) ∧
    (EntityId.pack ⟨0, 1⟩ ≠ EntityId.pack ⟨0, 0⟩) := by
  have hd : EntityTable.destroy ⟨[⟨0, true⟩], []⟩ ⟨0, 0⟩ =
      .ok (⟨[⟨1, false⟩], [0]⟩ : EntityTable) := rfl
  have h := entity_generation_safety ⟨[⟨0, true⟩], []⟩ ⟨[⟨1, false⟩], [0]⟩ ⟨0, 0⟩ hd
    [TableOp.create]
  have hmem : (⟨0, 1⟩ : EntityId) ∈
      ((EntityTable.run ⟨[⟨1, false⟩], [0]⟩ [TableOp.create]).2) := by
    rw [show (EntityTable.run ⟨[⟨1, false⟩], [0]⟩ [TableOp.create]).2 =
      [⟨0, 1⟩] from rfl]
    exact List.mem_singleton.mpr rfl
  have h2 := h.2.2 ⟨0, 1⟩ hmem
  exact ⟨h.1, h2.1, h2.2 (by norm_num) (by norm_num)⟩

/-! ## Archetype store: signature canonicalization (spec-modelled, §4.2) -/

/-- Modelled from the spec: signature canonicalization in the Archetype
Store's `FindOrCreate` (§4.2) — "canonicalizes the signature (sort +
dedupe — duplicate types in a signature are a caller error, fails with
`InvalidSignature`)"; missing from src (`World.h` declares
`FindOrCreateArchetype` but never implements it). -/
def canonicalize (sig : List Nat) : Except ECSError (List Nat) :=
  if sig.Nodup then .ok (List.insertionSort (· ≤ ·) sig) else .error .invalidSignature

/-- Modelled from the spec: an Archetype (§3) — canonical signature, one
column of component values per type, and the parallel array of entity
ids occupying each row. -/
structure Archetype where
  signature : List Nat
  columns : List (List Nat)
  entityIds : List EntityId
  deriving DecidableEq, Repr

/-- Modelled from the spec: the Archetype Store (§4.2), owning all
archetypes; an `ArchetypeRef` is an index into this list. -/
structure ArchetypeStore where
  archetypes : List Archetype
  deriving DecidableEq, Repr

/-- Modelled from the spec: `FindOrCreate(Signature)` (§4.2) —
canonicalize, look up by exact match, create a new Archetype with one
empty column per type if absent. -/
def ArchetypeStore.findOrCreate (st : ArchetypeStore) (sig : List Nat) :
    Except ECSError (ArchetypeStore × Nat) :=
  match canonicalize sig with
  | .error err => .error err
  | .ok canon =>
      match st.archetypes.findIdx? (fun a => a.signature == canon) with
      | some i => .ok (st, i)
      | none =>
          .ok (⟨st.archetypes ++ [⟨canon, canon.map (fun _ => []), []⟩]⟩,
            st.archetypes.length)

theorem canonicalize_perm_eq {sig1 sig2 : List Nat} (hperm : sig1.Perm sig2) :
    canonicalize sig1 = canonicalize sig2 := by
  unfold canonicalize
  by_cases h : sig1.Nodup
  · have h2 : sig2.Nodup := hperm.nodup_iff.mp h
    rw [if_pos h, if_pos h2]
    have hps : (List.insertionSort (· ≤ ·) sig1).Perm (List.insertionSort (· ≤ ·) sig2) :=
      ((List.perm_insertionSort _ sig1).trans hperm).trans
        (List.perm_insertionSort _ sig2).symm
    rw [List.eq_of_perm_of_sorted hps
      (List.sorted_insertionSort _ sig1) (List.sorted_insertionSort _ sig2)]
  · have h2 : ¬ sig2.Nodup := fun hn => h (hperm.nodup_iff.mpr hn)
    rw [if_neg h, if_neg h2]

/-- **C5.** Signature canonicalization: permuted component-type lists
give the very same result of the archetype find-or-create operation (same
store, same archetype reference), and a signature containing a duplicate
component type fails with `InvalidSignature`. -/
theorem signature_canonicalization (st : ArchetypeStore) (sig1 sig2 : List Nat)
    (hperm : sig1.Perm sig2) :
    st.findOrCreate sig1 = st.findOrCreate sig2 ∧
    (¬ sig1.Nodup → st.findOrCreate sig1 = .error .invalidSignature) := by
  constructor
  · unfold ArchetypeStore.findOrCreate
    rw [canonicalize_perm_eq hperm]
  · intro hdup
    unfold ArchetypeStore.findOrCreate canonicalize
    rw [if_neg hdup]

/-- Witness for **C5**: on an empty store, `FindOrCreate {2,1}` and
`FindOrCreate {1,2}` coincide, and `FindOrCreate {1,1}` fails with
`InvalidSignature`. -/
theorem signature_canonicalization_witness :
    ArchetypeStore.findOrCreate ⟨[]⟩ [2, 1] = ArchetypeStore.findOrCreate ⟨[]⟩ [1, 2] ∧
    ArchetypeStore.findOrCreate ⟨[]⟩ [1, 1] = .error .invalidSignature := by
  refine ⟨(signature_canonicalization ⟨[]⟩ [2, 1] [1, 2] (by decide)).1, ?_⟩
  exact (signature_canonicalization ⟨[]⟩ [1, 1] [1, 1] (by decide)).2 (by decide)

/-! ## Archetype migration preserves other components (spec-modelled, §4.2/§3)

A single entity's row: the archetype's canonical signature together with
the entity's component values parallel to it.  `AddComponent` /
`RemoveComponent` migrate the row per §4.2 `MoveRow`: values of types
common to both signatures are moved, types only in the source are
dropped, types only in the destination are default-constructed. -/

/-- A row of component storage for one entity: the signature of its
archetype and its values, positionally parallel. -/
structure EntityRow where
  sig : List Nat
  vals : List Nat
  deriving DecidableEq, Repr

/-- The stored value of component type `t` in a row (`none` when the type
is not in the signature). -/
def EntityRow.getComp (r : EntityRow) (t : Nat) : Option Nat :=
  (r.sig.zip r.vals).lookup t

/-- Modelled from the spec: `MoveRow` (§4.2) restricted to one entity —
for every type common to both signatures the value moves over, types only
in `to` are default-constructed (value 0). -/
def moveRow (r : EntityRow) (toSig : List Nat) : EntityRow :=
  ⟨toSig, toSig.map (fun t => (r.getComp t).getD 0)⟩

/-- Modelled from the spec: `AddComponent<T>(e, v)` (§3 Lifecycle) —
migrate to the archetype whose signature also contains `T` (canonical
order kept by sorted insertion), then store `v` in `T`'s column. -/
def EntityRow.addComponent (r : EntityRow) (T v : Nat) : EntityRow :=
  let toSig := List.orderedInsert (· ≤ ·) T r.sig
  ⟨toSig, toSig.map (fun t => if t = T then v else (r.getComp t).getD 0)⟩

/-- Modelled from the spec: `RemoveComponent<T>(e)` (§3 Lifecycle) —
migrate to the archetype whose signature drops `T`. -/
def EntityRow.removeComponent (r : EntityRow) (T : Nat) : EntityRow :=
  moveRow r (r.sig.erase T)

theorem lookup_zip_map (sig : List Nat) (f : Nat → Nat) (U : Nat) (h : U ∈ sig) :
    (sig.zip (sig.map f)).lookup U = some (f U) := by
  induction sig with
  | nil => cases h
  | cons s rest ih =>
      rw [List.map_cons, List.zip_cons_cons, List.lookup]
      by_cases hs : U = s
      · subst hs
        simp
      · have hm : U ∈ rest := by
          rcases List.mem_cons.mp h with h1 | h1
          · exact absurd h1 hs
          · exact h1
        rw [beq_eq_false_iff_ne.mpr hs]
        exact ih hm

theorem lookup_zip_isSome (sig vals : List Nat) (U : Nat)
    (hlen : vals.length = sig.length) (h : U ∈ sig) :
    ∃ w, (sig.zip vals).lookup U = some w := by
  induction sig generalizing vals with
  | nil => cases h
  | cons s rest ih =>
      cases vals with
      | nil => cases hlen
      | cons v vrest =>
          rw [List.zip_cons_cons, List.lookup]
          by_cases hs : U = s
          · subst hs
            exact ⟨v, by simp⟩
          · have hm : U ∈ rest := by
              rcases List.mem_cons.mp h with h1 | h1
              · exact absurd h1 hs
              · exact h1
            rw [beq_eq_false_iff_ne.mpr hs]
            exact ih vrest (Nat.succ_injective hlen) hm

theorem orderedInsert_erase_of_not_mem (l : List Nat) (a : Nat) (h : a ∉ l) :
    (List.orderedInsert (· ≤ ·) a l).erase a = l := by
  induction l with
  | nil => simp [List.orderedInsert]
  | cons b rest ih =>
      rw [List.orderedInsert]
      by_cases hab : a ≤ b
      · rw [if_pos hab, List.erase_cons_head]
      · rw [if_neg hab, List.erase_cons_tail]
        · rw [ih (fun hm => h (List.mem_cons_of_mem b hm))]
        · simp only [beq_iff_eq]
          intro hba
          exact h (hba ▸ List.mem_cons_self b rest)

/-- **C8.** Add/remove round-trip leaves other components unchanged: for
an entity holding any set of components (a well-formed row), performing
`AddComponent<T>(e, v)` for a `T` not already on `e` and then
`RemoveComponent<T>(e)` brings the row back to the original signature and
leaves the stored value of every other component bit-identical to its
value before the two calls. -/
theorem add_remove_roundtrip (r : EntityRow) (T v : Nat)
    (hT : T ∉ r.sig) (hlen : r.vals.length = r.sig.length) :
    ((r.addComponent T v).removeComponent T).sig = r.sig ∧
    ∀ U ∈ r.sig, ((r.addComponent T v).removeComponent T).getComp U = r.getComp U := by
  have hsig : ((r.addComponent T v).removeComponent T).sig = r.sig := by
    show ((r.addComponent T v).sig.erase T) = r.sig
    show ((List.orderedInsert (· ≤ ·) T r.sig).erase T) = r.sig
    exact orderedInsert_erase_of_not_mem r.sig T hT
  refine ⟨hsig, fun U hU => ?_⟩
  have hUins : U ∈ List.orderedInsert (· ≤ ·) T r.sig := by
    rw [List.mem_orderedInsert]
    exact Or.inr hU
  have hUT : U ≠ T := fun hUT => hT (hUT ▸ hU)
  have step1 : (r.addComponent T v).getComp U = r.getComp U := by
    unfold EntityRow.addComponent EntityRow.getComp
    dsimp only
    rw [lookup_zip_map _ _ _ hUins]
    rw [if_neg hUT]
    obtain ⟨w, hw⟩ := lookup_zip_isSome r.sig r.vals U hlen hU
    show some ((r.getComp U).getD 0) = r.getComp U
    unfold EntityRow.getComp
    rw [hw]
    rfl
  have step2 : ((r.addComponent T v).removeComponent T).getComp U =
      (r.addComponent T v).getComp U := by
    unfold EntityRow.removeComponent moveRow EntityRow.getComp
    dsimp only
    have hU' : U ∈ (r.addComponent T v).sig.erase T := by
      have : (r.addComponent T v).sig.erase T = r.sig := hsig
      rw [this]
      exact hU
    rw [lookup_zip_map _ _ _ hU']
    obtain ⟨w, hw⟩ := lookup_zip_isSome (r.addComponent T v).sig (r.addComponent T v).vals U
      (by
        show ((List.orderedInsert (· ≤ ·) T r.sig).map _).length =
          (List.orderedInsert (· ≤ ·) T r.sig).length
        rw [List.length_map])
      hUins
    show some (((r.addComponent T v).getComp U).getD 0) = (r.addComponent T v).getComp U
    unfold EntityRow.getComp
    rw [hw]
    rfl
  rw [step2, step1]

/-- Witness for **C8**: the row with components `{1 ↦ 10, 3 ↦ 30}` gains
`2 ↦ 99` and loses it again; the other two values are unchanged. -/
theorem add_remove_roundtrip_witness :
    ((EntityRow.mk [1, 3] [10, 30]).addComponent 2 99).removeComponent 2 =
      EntityRow.mk [1, 3] [10, 30] ∧
    (((EntityRow.mk [1, 3] [10, 30]).addComponent 2 99).removeComponent 2).getComp 3 =
      some 30 := by
  have h := add_remove_roundtrip (EntityRow.mk [1, 3] [10, 30]) 2 99
    (by decide) (by decide)
  refine ⟨by decide, ?_⟩
  have := h.2 3 (by decide)
  rw [this]
  decide

/-! ## System scheduler (spec-modelled, §4.5, §7) -/

/-- Modelled from the spec: a registered system (§4.5); missing from src
(`World.h` declares `AddSystem`/`Update`/`Render` and the `m_Systems`
vector but implements none of them).  A callback either produces the new
world state or raises an error, modelled as `Except` with the error's log
message. -/
structure SystemDef (W : Type) where
  sysId : Nat
  onUpdate : W → ℚ → Except String W
  onRender : W → Except String W

/-- The outcome of one scheduler pass: the final world state, the ids of
the systems whose callback was invoked (in invocation order), and the
`(system identity, message)` pairs logged for caught errors. -/
structure PassResult (W : Type) where
  finalWorld : W
  invoked : List Nat
  errors : List (Nat × String)

/-- Modelled from the spec: `RunUpdate(dt)` (§4.5, §7) — invokes
`OnUpdate(dt)` for every system in list order; a system's error is caught
at the scheduler boundary, logged with system identity, aborts only that
system's callback, and execution continues with the next system. -/
def runUpdatePass {W : Type} (systems : List (SystemDef W)) (dt : ℚ) (w : W) :
    PassResult W :=
  match systems with
  | [] => ⟨w, [], []⟩
  | s :: rest =>
      match s.onUpdate w dt with
      | .ok w' =>
          ⟨(runUpdatePass rest dt w').finalWorld,
            s.sysId :: (runUpdatePass rest dt w').invoked,
            (runUpdatePass rest dt w').errors⟩
      | .error msg =>
          ⟨(runUpdatePass rest dt w).finalWorld,
            s.sysId :: (runUpdatePass rest dt w).invoked,
            (s.sysId, msg) :: (runUpdatePass rest dt w).errors⟩

/-- Modelled from the spec: `RunRender()` (§4.5) — the same pass over the
render callbacks. -/
def runRenderPass {W : Type} (systems : List (SystemDef W)) (w : W) :
    PassResult W :=
  match systems with
  | [] => ⟨w, [], []⟩
  | s :: rest =>
      match s.onRender w with
      | .ok w' =>
          ⟨(runRenderPass rest w').finalWorld,
            s.sysId :: (runRenderPass rest w').invoked,
            (runRenderPass rest w').errors⟩
      | .error msg =>
          ⟨(runRenderPass rest w).finalWorld,
            s.sysId :: (runRenderPass rest w).invoked,
            (s.sysId, msg) :: (runRenderPass rest w).errors⟩

theorem runUpdatePass_invoked {W : Type} (systems : List (SystemDef W)) (dt : ℚ)
    (w : W) : (runUpdatePass systems dt w).invoked = systems.map SystemDef.sysId := by
  induction systems generalizing w with
  | nil => rfl
  | cons s rest ih =>
      unfold runUpdatePass
      cases s.onUpdate w dt with
      | ok w' =>
          dsimp only
          rw [List.map_cons, ih w']
      | error msg =>
          dsimp only
          rw [List.map_cons, ih w]

theorem runRenderPass_invoked {W : Type} (systems : List (SystemDef W)) (w : W) :
    (runRenderPass systems w).invoked = systems.map SystemDef.sysId := by
  induction systems generalizing w with
  | nil => rfl
  | cons s rest ih =>
      unfold runRenderPass
      cases s.onRender w with
      | ok w' =>
          dsimp only
          rw [List.map_cons, ih w']
      | error msg =>
          dsimp only
          rw [List.map_cons, ih w]

theorem runUpdatePass_cons_ok {W : Type} (s : SystemDef W) (rest : List (SystemDef W))
    (dt : ℚ) (w w' : W) (h : s.onUpdate w dt = .ok w') :
    runUpdatePass (s :: rest) dt w =
      ⟨(runUpdatePass rest dt w').finalWorld,
        s.sysId :: (runUpdatePass rest dt w').invoked,
        (runUpdatePass rest dt w').errors⟩ := by
  conv_lhs => rw [runUpdatePass]
  rw [h]

theorem runUpdatePass_cons_err {W : Type} (s : SystemDef W) (rest : List (SystemDef W))
    (dt : ℚ) (w : W) (msg : String) (h : s.onUpdate w dt = .error msg) :
    runUpdatePass (s :: rest) dt w =
      ⟨(runUpdatePass rest dt w).finalWorld,
        s.sysId :: (runUpdatePass rest dt w).invoked,
        (s.sysId, msg) :: (runUpdatePass rest dt w).errors⟩ := by
  conv_lhs => rw [runUpdatePass]
  rw [h]

theorem runUpdatePass_append {W : Type} (l1 l2 : List (SystemDef W)) (dt : ℚ)
    (w : W) :
    (runUpdatePass (l1 ++ l2) dt w).finalWorld =
      (runUpdatePass l2 dt (runUpdatePass l1 dt w).finalWorld).finalWorld ∧
    (runUpdatePass (l1 ++ l2) dt w).errors =
      (runUpdatePass l1 dt w).errors ++
        (runUpdatePass l2 dt (runUpdatePass l1 dt w).finalWorld).errors := by
  induction l1 generalizing w with
  | nil => exact ⟨rfl, rfl⟩
  | cons s rest ih =>
      rw [List.cons_append]
      cases h : s.onUpdate w dt with
      | ok w' =>
          rw [runUpdatePass_cons_ok s (rest ++ l2) dt w w' h,
            runUpdatePass_cons_ok s rest dt w w' h]
          exact ⟨(ih w').1, by dsimp only; rw [(ih w').2]⟩
      | error msg =>
          rw [runUpdatePass_cons_err s (rest ++ l2) dt w msg h,
            runUpdatePass_cons_err s rest dt w msg h]
          refine ⟨(ih w).1, ?_⟩
          dsimp only
          rw [(ih w).2, List.cons_append]

theorem runRenderPass_cons_ok {W : Type} (s : SystemDef W) (rest : List (SystemDef W))
    (w w' : W) (h : s.onRender w = .ok w') :
    runRenderPass (s :: rest) w =
      ⟨(runRenderPass rest w').finalWorld,
        s.sysId :: (runRenderPass rest w').invoked,
        (runRenderPass rest w').errors⟩ := by
  conv_lhs => rw [runRenderPass]
  rw [h]

theorem runRenderPass_cons_err {W : Type} (s : SystemDef W) (rest : List (SystemDef W))
    (w : W) (msg : String) (h : s.onRender w = .error msg) :
    runRenderPass (s :: rest) w =
      ⟨(runRenderPass rest w).finalWorld,
        s.sysId :: (runRenderPass rest w).invoked,
        (s.sysId, msg) :: (runRenderPass rest w).errors⟩ := by
  conv_lhs => rw [runRenderPass]
  rw [h]

theorem runRenderPass_append {W : Type} (l1 l2 : List (SystemDef W)) (w : W) :
    (runRenderPass (l1 ++ l2) w).finalWorld =
      (runRenderPass l2 (runRenderPass l1 w).finalWorld).finalWorld ∧
    (runRenderPass (l1 ++ l2) w).errors =
      (runRenderPass l1 w).errors ++
        (runRenderPass l2 (runRenderPass l1 w).finalWorld).errors := by
  induction l1 generalizing w with
  | nil => exact ⟨rfl, rfl⟩
  | cons s rest ih =>
      rw [List.cons_append]
      cases h : s.onRender w with
      | ok w' =>
          rw [runRenderPass_cons_ok s (rest ++ l2) w w' h,
            runRenderPass_cons_ok s rest w w' h]
          exact ⟨(ih w').1, by dsimp only; rw [(ih w').2]⟩
      | error msg =>
          rw [runRenderPass_cons_err s (rest ++ l2) w msg h,
            runRenderPass_cons_err s rest w msg h]
          refine ⟨(ih w).1, ?_⟩
          dsimp only
          rw [(ih w).2, List.cons_append]

/-- **C7.** System invocation order: every frame, the update pass invokes
the update callback of every registered system exactly once, in
registration order (its invocation log is exactly the registration list's
ids), and the render pass does the same for render callbacks; errors
cause no reordering. -/
theorem system_invocation_order {W : Type} (systems : List (SystemDef W)) (dt : ℚ)
    (w : W) :
    (runUpdatePass systems dt w).invoked = systems.map SystemDef.sysId ∧
    (runRenderPass systems w).invoked = systems.map SystemDef.sysId :=
  ⟨runUpdatePass_invoked systems dt w, runRenderPass_invoked systems w⟩

/-- **C6.** Scheduler error isolation: when a system's update or render
callback raises an error during a frame, the error is caught at the
scheduler boundary and logged with the system's identity, only that
system's callback is aborted for that frame (the world it would have
produced is discarded, the next system receives the world from before
the failing callback), and every subsequent system in the list is still
invoked for the same frame — in the update pass and in the render pass
alike; no exception propagates to other systems or the caller. -/
theorem scheduler_error_isolation {W : Type} (pre post : List (SystemDef W))
    (s : SystemDef W) (dt : ℚ) (w : W) (msg : String) :
    (s.onUpdate (runUpdatePass pre dt w).finalWorld dt = .error msg →
      (runUpdatePass (pre ++ s :: post) dt w).invoked =
        (pre ++ s :: post).map SystemDef.sysId ∧
      (s.sysId, msg) ∈ (runUpdatePass (pre ++ s :: post) dt w).errors ∧
      (runUpdatePass (pre ++ s :: post) dt w).finalWorld =
        (runUpdatePass post dt (runUpdatePass pre dt w).finalWorld).finalWorld) ∧
    (s.onRender (runRenderPass pre w).finalWorld = .error msg →
      (runRenderPass (pre ++ s :: post) w).invoked =
        (pre ++ s :: post).map SystemDef.sysId ∧
      (s.sysId, msg) ∈ (runRenderPass (pre ++ s :: post) w).errors ∧
      (runRenderPass (pre ++ s :: post) w).finalWorld =
        (runRenderPass post (runRenderPass pre w).finalWorld).finalWorld) := by
  constructor
  · intro herr
    obtain ⟨hfin, herrs⟩ := runUpdatePass_append pre (s :: post) dt w
    have hcons : runUpdatePass (s :: post) dt (runUpdatePass pre dt w).finalWorld =
        ⟨(runUpdatePass post dt (runUpdatePass pre dt w).finalWorld).finalWorld,
          s.sysId :: (runUpdatePass post dt (runUpdatePass pre dt w).finalWorld).invoked,
          (s.sysId, msg) ::
            (runUpdatePass post dt (runUpdatePass pre dt w).finalWorld).errors⟩ :=
      runUpdatePass_cons_err s post dt (runUpdatePass pre dt w).finalWorld msg herr
    refine ⟨runUpdatePass_invoked _ dt w, ?_, ?_⟩
    · rw [herrs, hcons]
      exact List.mem_append.mpr (Or.inr (List.mem_cons_self _ _))
    · rw [hfin, hcons]
  · intro herr
    obtain ⟨hfin, herrs⟩ := runRenderPass_append pre (s :: post) w
    have hcons : runRenderPass (s :: post) (runRenderPass pre w).finalWorld =
        ⟨(runRenderPass post (runRenderPass pre w).finalWorld).finalWorld,
          s.sysId :: (runRenderPass post (runRenderPass pre w).finalWorld).invoked,
          (s.sysId, msg) ::
            (runRenderPass post (runRenderPass pre w).finalWorld).errors⟩ :=
      runRenderPass_cons_err s post (runRenderPass pre w).finalWorld msg herr
    refine ⟨runRenderPass_invoked _ w, ?_, ?_⟩
    · rw [herrs, hcons]
      exact List.mem_append.mpr (Or.inr (List.mem_cons_self _ _))
    · rw [hfin, hcons]

/-- Witness for **C6**: a system (id 1) whose update and render callbacks
both fail, followed by a system (id 2) that increments on update and adds
ten on render, over world state `Nat`: in both passes both systems are
invoked, the failure is logged, and the frame completes with the second
system's effect applied to the pre-failure state. -/
theorem scheduler_error_isolation_witness :
    ((runUpdatePass
      [⟨1, fun _ _ => .error "boom", fun _ => .error "boom"⟩,
       ⟨2, fun w _ => .ok (w + 1), fun w => .ok (w + 10)⟩] 1 (0 : Nat)).invoked = [1, 2] ∧
     (1, "boom") ∈ (runUpdatePass
      [⟨1, fun _ _ => .error "boom", fun _ => .error "boom"⟩,
       ⟨2, fun w _ => .ok (w + 1), fun w => .ok (w + 10)⟩] 1 (0 : Nat)).errors ∧
     (runUpdatePass
      [⟨1, fun _ _ => .error "boom", fun _ => .error "boom"⟩,
       ⟨2, fun w _ => .ok (w + 1), fun w => .ok (w + 10)⟩] 1 (0 : Nat)).finalWorld = 1) ∧
    ((runRenderPass
      [⟨1, fun _ _ => .error "boom", fun _ => .error "boom"⟩,
       ⟨2, fun w _ => .ok (w + 1), fun w => .ok (w + 10)⟩] (0 : Nat)).invoked = [1, 2] ∧
     (1, "boom") ∈ (runRenderPass
      [⟨1, fun _ _ => .error "boom", fun _ => .error "boom"⟩,
       ⟨2, fun w _ => .ok (w + 1), fun w => .ok (w + 10)⟩] (0 : Nat)).errors ∧
     (runRenderPass
      [⟨1, fun _ _ => .error "boom", fun _ => .error "boom"⟩,
       ⟨2, fun w _ => .ok (w + 1), fun w => .ok (w + 10)⟩] (0 : Nat)).finalWorld = 10) := by
  have h := scheduler_error_isolation ([] : List (SystemDef Nat))
    [⟨2, fun w _ => .ok (w + 1), fun w => .ok (w + 10)⟩]
    ⟨1, fun _ _ => .error "boom", fun _ => .error "boom"⟩ 1 0 "boom"
  have hu := h.1 rfl
  have hr := h.2 rfl
  exact ⟨⟨hu.1, hu.2.1, hu.2.2⟩, ⟨hr.1, hr.2.1, hr.2.2⟩⟩

/-! ## Hierarchy cascade (spec-modelled, §3, §4.4)

`World.h` declares the hierarchy maps (`m_Children`, `m_Parents`) and
`DestroyEntity` / `DestroyEntityRecursive`, all unimplemented.  The
subtree rooted at the destroyed entity — edges given by the parent/child
maps — is materialized as a finite tree and destroyed by the
specification's post-order traversal. -/

/-- Modelled from the spec: the subtree of the Hierarchy Index (§3
"Hierarchy edges") rooted at one entity, as read off the
parent→children adjacency; missing from src (`World.h` declares the two
hierarchy maps but no operation on them is implemented). -/
inductive ETree where
  | node (entity : EntityId) (children : List ETree)

/-- The entity at the root of a subtree. -/
def ETree.rootId : ETree → EntityId
  | .node i _ => i

/-- The direct child subtrees of a subtree's root. -/
def ETree.childList : ETree → List ETree
  | .node _ cs => cs

mutual

/-- Modelled from the spec: the post-order traversal of
`DestroySubtree(root)` (§4.4) — "children before the node itself". -/
def ETree.postOrder : ETree → List EntityId
  | .node i cs => ETree.postOrderList cs ++ [i]

/-- Post-order traversal of a list of sibling subtrees, left to right. -/
def ETree.postOrderList : List ETree → List EntityId
  | [] => []
  | c :: cs => ETree.postOrder c ++ ETree.postOrderList cs

end

mutual

/-- Every subtree of a tree, the tree itself included. -/
def ETree.subtrees : ETree → List ETree
  | .node i cs => ETree.node i cs :: ETree.subtreesList cs

/-- Every subtree of any tree in a list of sibling subtrees. -/
def ETree.subtreesList : List ETree → List ETree
  | [] => []
  | c :: cs => ETree.subtrees c ++ ETree.subtreesList cs

end

/-- `p` is the parent of `c` somewhere in the tree: some subtree is
rooted at `p` and has a direct child rooted at `c`. -/
def ETree.IsParentChild (tr : ETree) (p c : EntityId) : Prop :=
  ∃ st ∈ tr.subtrees, st.rootId = p ∧ ∃ ct ∈ st.childList, ct.rootId = c

/-- Modelled from the spec: the destruction loop of `DestroySubtree`
(§4.4) — `EntityTable::Destroy` called on each id in traversal order (a
failed destroy leaves the table unchanged, §4.3). -/
def EntityTable.destroyList (t : EntityTable) : List EntityId → EntityTable
  | [] => t
  | e :: es =>
      match t.destroy e with
      | .ok t' => t'.destroyList es
      | .error _ => t.destroyList es

/-- Modelled from the spec: `DestroySubtree(root)` (§4.4) — post-order
traversal calling `EntityTable::Destroy` on each entity of the
subtree. -/
def EntityTable.destroySubtree (t : EntityTable) (tr : ETree) : EntityTable :=
  t.destroyList tr.postOrder

theorem EntityTable.resolve_ok_cases {t : EntityTable} {e : EntityId}
    (h : t.resolve e = .ok ()) :
    t.slots[e.index]? = some ⟨e.generation, true⟩ := by
  unfold EntityTable.resolve at h
  split at h
  · rename_i s hs
    split at h
    · rename_i hc
      rw [hs]
      obtain ⟨h1, h2⟩ := hc
      cases s
      simp_all
    · cases h
  · cases h

theorem EntityTable.destroy_of_live {t : EntityTable} {e : EntityId}
    (h : t.resolve e = .ok ()) :
    t.destroy e =
      .ok ⟨t.slots.set e.index ⟨e.generation + 1, false⟩, e.index :: t.freeList⟩ := by
  have hs := EntityTable.resolve_ok_cases h
  unfold EntityTable.destroy
  rw [hs]
  simp

theorem EntityTable.live_after_destroy {t t' : EntityTable} {e e' : EntityId}
    (hlive : t.resolve e = .ok ()) (hne : e' ≠ e) (hd : t.destroy e' = .ok t') :
    t'.resolve e = .ok () := by
  obtain ⟨s, hs, hg, _, rfl⟩ := EntityTable.destroy_ok_cases hd
  have he := EntityTable.resolve_ok_cases hlive
  by_cases hidx : e'.index = e.index
  · exfalso
    rw [hidx] at hs
    rw [hs] at he
    have hse := Option.some.inj he
    apply hne
    have hgen : e'.generation = e.generation := by
      rw [← hg, hse]
    cases e'
    cases e
    dsimp at hidx hgen
    rw [hidx, hgen]
  · unfold EntityTable.resolve
    dsimp only
    rw [List.getElem?_set_ne hidx, he]
    simp

theorem EntityTable.destroyList_progress (t : EntityTable) (l : List EntityId) :
    t.Progress (t.destroyList l) := by
  induction l generalizing t with
  | nil => exact EntityTable.Progress.rfl t
  | cons e es ih =>
      unfold EntityTable.destroyList
      cases hd : t.destroy e with
      | ok t' => exact (EntityTable.destroy_progress hd).trans (ih t')
      | error _ => exact ih t

theorem EntityTable.live_after_destroyList {t : EntityTable} {e : EntityId}
    (hlive : t.resolve e = .ok ()) (l : List EntityId) (hnot : e ∉ l) :
    (t.destroyList l).resolve e = .ok () := by
  induction l generalizing t with
  | nil => exact hlive
  | cons e' es ih =>
      unfold EntityTable.destroyList
      cases hd : t.destroy e' with
      | ok t' =>
          have hne : e' ≠ e := fun hc => hnot (hc ▸ List.mem_cons_self e' es)
          exact ih (EntityTable.live_after_destroy hlive hne hd)
            (fun hm => hnot (List.mem_cons_of_mem e' hm))
      | error _ => exact ih hlive (fun hm => hnot (List.mem_cons_of_mem e' hm))

theorem EntityTable.destroyList_stale {t : EntityTable} {l : List EntityId}
    (hnd : l.Nodup) (hlive : ∀ e ∈ l, t.resolve e = .ok ()) :
    ∀ e ∈ l, (t.destroyList l).Stale e := by
  induction l generalizing t with
  | nil => intro e h; cases h
  | cons a es ih =>
      intro e he
      have hda := EntityTable.destroy_of_live (hlive a (List.mem_cons_self a es))
      unfold EntityTable.destroyList
      simp only [hda]
      rcases List.mem_cons.mp he with rfl | hes
      · exact (EntityTable.destroy_stale hda).mono (EntityTable.destroyList_progress _ es)
      · have hnotmem : a ∉ es := (List.nodup_cons.mp hnd).1
        refine ih (List.nodup_cons.mp hnd).2 (fun e2 h2 => ?_) e hes
        have hne : a ≠ e2 := fun hc => hnotmem (hc ▸ h2)
        exact EntityTable.live_after_destroy (hlive e2 (List.mem_cons_of_mem a h2)) hne hda

theorem ETree.self_mem_subtrees (tr : ETree) : tr ∈ tr.subtrees := by
  cases tr with
  | node i cs =>
      rw [ETree.subtrees]
      exact List.mem_cons_self _ _

theorem ETree.mem_subtreesList_of_mem {cs : List ETree} {ct : ETree} (h : ct ∈ cs) :
    ct ∈ ETree.subtreesList cs := by
  induction cs with
  | nil => cases h
  | cons c rest ih =>
      rw [ETree.subtreesList]
      rcases List.mem_cons.mp h with rfl | h1
      · exact List.mem_append.mpr (Or.inl (ETree.self_mem_subtrees ct))
      · exact List.mem_append.mpr (Or.inr (ih h1))

mutual

theorem ETree.postOrder_sublist_of_mem_subtrees :
    ∀ (tr st : ETree), st ∈ tr.subtrees → List.Sublist st.postOrder tr.postOrder
  | .node i cs, st, h => by
      rw [ETree.subtrees] at h
      rcases List.mem_cons.mp h with rfl | h1
      · exact List.Sublist.refl _
      · rw [ETree.postOrder]
        exact (ETree.postOrderList_sublist_of_mem_subtreesList cs st h1).trans
          (List.sublist_append_left _ _)

theorem ETree.postOrderList_sublist_of_mem_subtreesList :
    ∀ (cs : List ETree) (st : ETree), st ∈ ETree.subtreesList cs →
      List.Sublist st.postOrder (ETree.postOrderList cs)
  | c :: rest, st, h => by
      rw [ETree.subtreesList] at h
      rw [ETree.postOrderList]
      rcases List.mem_append.mp h with h1 | h1
      · exact (ETree.postOrder_sublist_of_mem_subtrees c st h1).trans
          (List.sublist_append_left _ _)
      · exact (ETree.postOrderList_sublist_of_mem_subtreesList rest st h1).trans
          (List.sublist_append_right _ _)

end

theorem ETree.rootId_mem_postOrder (tr : ETree) : tr.rootId ∈ tr.postOrder := by
  cases tr with
  | node i cs =>
      rw [ETree.postOrder, ETree.rootId]
      exact List.mem_append.mpr (Or.inr (List.mem_singleton.mpr rfl))

theorem ETree.child_before_parent {tr : ETree} {p c : EntityId}
    (h : tr.IsParentChild p c) : List.Sublist [c, p] tr.postOrder := by
  obtain ⟨st, hst, hp, ct, hct, hc⟩ := h
  have hsub : List.Sublist [c, p] st.postOrder := by
    cases st with
    | node i cs =>
        rw [ETree.rootId] at hp
        rw [ETree.childList] at hct
        subst hp
        rw [ETree.postOrder]
        have hcm : c ∈ ETree.postOrderList cs := by
          have h1 : c ∈ ct.postOrder := hc ▸ ETree.rootId_mem_postOrder ct
          exact (ETree.postOrderList_sublist_of_mem_subtreesList cs ct
            (ETree.mem_subtreesList_of_mem hct)).subset h1
        have hstep : List.Sublist [c] (ETree.postOrderList cs) :=
          List.singleton_sublist.mpr hcm
        exact List.Sublist.append hstep (List.Sublist.refl _)
  exact hsub.trans (ETree.postOrder_sublist_of_mem_subtrees tr st hst)

end DSRT

namespace DSRT

/-- **C4.** Hierarchy cascade: destroying the root of a tree of entities
(edges given by the parent/child maps) destroys every entity of the tree
— each one subsequently fails `Resolve` with `StaleHandle` — and the
destruction sequence, which is by definition the post-order traversal
`tr.postOrder`, destroys each child strictly before its parent. -/
theorem hierarchy_cascade (t : EntityTable) (tr : ETree)
    (hnd : tr.postOrder.Nodup)
    (hlive : ∀ e ∈ tr.postOrder, t.resolve e = .ok ()) :
    (∀ st ∈ tr.subtrees,
      (t.destroySubtree tr).resolve st.rootId = .error .staleHandle) ∧
    (∀ p c, tr.IsParentChild p c → List.Sublist [c, p] tr.postOrder) := by
  constructor
  · intro st hst
    have hmem : st.rootId ∈ tr.postOrder :=
      (ETree.postOrder_sublist_of_mem_subtrees tr st hst).subset
        (ETree.rootId_mem_postOrder st)
    exact ((EntityTable.destroyList_stale hnd hlive) st.rootId hmem).resolve_fails
  · intro p c hpc
    exact ETree.child_before_parent hpc

/-- Witness for **C4**: a three-entity tree (root `(0,0)` with children
`(1,0)` and `(2,0)`) over a table of three live slots: after the cascade
the root fails `Resolve`, and child `(1,0)` is destroyed before the
root. -/
theorem hierarchy_cascade_witness :
    (EntityTable.destroySubtree ⟨[⟨0, true⟩, ⟨0, true⟩, ⟨0, true⟩], []⟩
      (ETree.node ⟨0, 0⟩ [ETree.node ⟨1, 0⟩ [], ETree.node ⟨2, 0⟩ []])).resolve ⟨0, 0⟩ =
      .error .staleHandle ∧
    List.Sublist [⟨1, 0⟩, ⟨0, 0⟩]
      (ETree.node (⟨0, 0⟩ : EntityId)
        [ETree.node ⟨1, 0⟩ [], ETree.node ⟨2, 0⟩ []]).postOrder := by
  have h := hierarchy_cascade ⟨[⟨0, true⟩, ⟨0, true⟩, ⟨0, true⟩], []⟩
    (ETree.node ⟨0, 0⟩ [ETree.node ⟨1, 0⟩ [], ETree.node ⟨2, 0⟩ []])
    (by decide)
    (by intro e he; fin_cases he <;> rfl)
  refine ⟨?_, ?_⟩
  · exact h.1 (ETree.node ⟨0, 0⟩ [ETree.node ⟨1, 0⟩ [], ETree.node ⟨2, 0⟩ []])
      (ETree.self_mem_subtrees _)
  · exact h.2 ⟨0, 0⟩ ⟨1, 0⟩
      ⟨ETree.node ⟨0, 0⟩ [ETree.node ⟨1, 0⟩ [], ETree.node ⟨2, 0⟩ []],
        ETree.self_mem_subtrees _, rfl,
        ETree.node ⟨1, 0⟩ [], List.mem_cons_self _ _, rfl⟩

/-! ## Deferred structural mutation (spec-modelled, §5, §4.2) -/

/-- Modelled from the spec: the World's deferred command buffer entries
(§5) — `QueueCreate`, `QueueDestroy`, `QueueAddComponent`,
`QueueRemoveComponent`; missing from src (the spec mandates the buffer
for the `World`, which `World.h` never implements).  A queued
add/remove carries the component type id; component values live in the
row model above. -/
inductive Command where
  | queueCreate
  | queueDestroy (e : EntityId)
  | queueAddComponent (e : EntityId) (compTy : Nat)
  | queueRemoveComponent (e : EntityId) (compTy : Nat)
  deriving DecidableEq, Repr

/-- Modelled from the spec: the structural view of an archetype (§3) —
its signature and the parallel array of entity ids occupying its
rows. -/
structure SArchetype where
  signature : List Nat
  entityIds : List EntityId
  deriving DecidableEq, Repr

/-- The structural state a `ForEach` pass ranges over: the entity table
and the archetypes. -/
structure WorldData where
  table : EntityTable
  archetypes : List SArchetype
  deriving DecidableEq, Repr

/-- Index of the first row holding entity `e` (the row lookup behind
§4.2's `EraseRow`). -/
def idxOfEntity (l : List EntityId) (e : EntityId) : Option Nat :=
  match l with
  | [] => none
  | x :: xs => if x = e then some 0 else (idxOfEntity xs e).map (· + 1)

/-- Modelled from the spec: `EraseRow`'s swap-remove (§4.2) — the last
row is swapped into the erased slot (a no-op move when the erased row is
already last) and the array truncates by one. -/
def eraseSwap {α : Type} (l : List α) (i : Nat) : List α :=
  match l.getLast? with
  | none => []
  | some lastRow => (l.set i lastRow).dropLast

/-- Remove entity `e`'s row from an archetype by swap-remove; an
archetype not holding `e` is unchanged. -/
def SArchetype.removeEntity (a : SArchetype) (e : EntityId) : SArchetype :=
  match idxOfEntity a.entityIds e with
  | none => a
  | some i => ⟨a.signature, eraseSwap a.entityIds i⟩

/-- Append an entity id to the archetype with signature `sig` (creating
it when absent) — the row-allocation step of §4.2. -/
def placeInArchetype (archs : List SArchetype) (sig : List Nat) (e : EntityId) :
    List SArchetype :=
  match archs.findIdx? (fun a => a.signature == sig) with
  | none => archs ++ [⟨sig, [e]⟩]
  | some i =>
      match archs[i]? with
      | none => archs
      | some a => archs.set i ⟨a.signature, a.entityIds ++ [e]⟩

/-- The signature of the archetype currently holding `e`, if any. -/
def findEntitySig (archs : List SArchetype) (e : EntityId) : Option (List Nat) :=
  (archs.find? (fun a => a.entityIds.contains e)).map SArchetype.signature

/-- Modelled from the spec: applying one queued structural command at a
flush point (§5 with §4.2/§4.3): a create places a fresh entity in the
empty-signature archetype; a destroy removes the entity's row by
swap-remove after the table's stale-handle guard; add/remove migrate the
entity's row to the archetype with the extended/reduced signature. -/
def WorldData.applyCommand (w : WorldData) : Command → WorldData
  | .queueCreate =>
      ⟨(w.table.create).1, placeInArchetype w.archetypes [] (w.table.create).2⟩
  | .queueDestroy e =>
      match w.table.destroy e with
      | .ok t' => ⟨t', w.archetypes.map (fun a => a.removeEntity e)⟩
      | .error _ => w
  | .queueAddComponent e compTy =>
      match findEntitySig w.archetypes e with
      | none => w
      | some sig =>
          if compTy ∈ sig then w
          else
            ⟨w.table,
              placeInArchetype (w.archetypes.map (fun a => a.removeEntity e))
                (List.orderedInsert (· ≤ ·) compTy sig) e⟩
  | .queueRemoveComponent e compTy =>
      match findEntitySig w.archetypes e with
      | none => w
      | some sig =>
          if compTy ∈ sig then
            ⟨w.table,
              placeInArchetype (w.archetypes.map (fun a => a.removeEntity e))
                (sig.erase compTy) e⟩
          else w

/-- The entities a `ForEach(required)` pass visits (§4.2 Iteration):
every archetype whose signature is a superset of `required`, rows in
order. -/
def visitList (archs : List SArchetype) (required : List Nat) : List EntityId :=
  ((archs.filter (fun a => decide (∀ t ∈ required, t ∈ a.signature))).map
    SArchetype.entityIds).flatten

/-- The running state of a `ForEach` pass: the structural world the
callbacks observe and the command buffer accumulated so far. -/
structure PassState where
  data : WorldData
  buffer : List Command

/-- Modelled from the spec: one visit during a `ForEach` pass (§5) — the
callback's queued commands only append to the command buffer; the
structural state is untouched. -/
def forEachStep (cb : EntityId → List Command) (st : PassState) (e : EntityId) :
    PassState :=
  ⟨st.data, st.buffer ++ cb e⟩

/-- Modelled from the spec: a whole `ForEach` pass followed by the flush
(§5) — visit every matching row in order collecting queued commands,
then apply the buffer's contents strictly after the pass returns and
before the next system runs.  Returns the visit log and the flushed
world. -/
def WorldData.runForEach (w : WorldData) (required : List Nat)
    (cb : EntityId → List Command) : List EntityId × WorldData :=
  (visitList w.archetypes required,
    ((visitList w.archetypes required).foldl (forEachStep cb) ⟨w, []⟩).buffer.foldl
      WorldData.applyCommand
      ((visitList w.archetypes required).foldl (forEachStep cb) ⟨w, []⟩).data)

/-- The callback of the claim's scenario: queue a destroy of `e` when
visiting `e`, queue nothing otherwise. -/
def destroyOnlyCb (e : EntityId) : EntityId → List Command :=
  fun x => if x = e then [Command.queueDestroy e] else []

theorem foldl_forEachStep_data (cb : EntityId → List Command) (vs : List EntityId)
    (st : PassState) : (vs.foldl (forEachStep cb) st).data = st.data := by
  induction vs generalizing st with
  | nil => rfl
  | cons v rest ih => exact ih ⟨st.data, st.buffer ++ cb v⟩

theorem foldl_forEachStep_buffer (cb : EntityId → List Command) (vs : List EntityId)
    (st : PassState) :
    (vs.foldl (forEachStep cb) st).buffer = st.buffer ++ (vs.map cb).flatten := by
  induction vs generalizing st with
  | nil => simp
  | cons v rest ih =>
      show (rest.foldl (forEachStep cb) ⟨st.data, st.buffer ++ cb v⟩).buffer = _
      rw [ih]
      simp [List.append_assoc]

theorem getLast_cons_dropLast_perm (m : List EntityId) (lastRow : EntityId)
    (h : m.getLast? = some lastRow) : (lastRow :: m.dropLast).Perm m := by
  induction m generalizing lastRow with
  | nil => cases h
  | cons x xs ih =>
      cases xs with
      | nil =>
          cases Option.some.inj h
          exact List.Perm.refl _
      | cons y t =>
          rw [List.getLast?_cons_cons] at h
          have step : lastRow :: (x :: y :: t).dropLast =
              lastRow :: x :: (y :: t).dropLast := rfl
          rw [step]
          exact (List.Perm.swap x lastRow _).trans ((ih lastRow h).cons x)

theorem eraseSwap_perm (l : List EntityId) (i : Nat) (e : EntityId)
    (h : l[i]? = some e) : (eraseSwap l i).Perm (l.eraseIdx i) := by
  induction l generalizing i with
  | nil => cases h
  | cons x xs ih =>
      cases i with
      | zero =>
          cases xs with
          | nil => exact List.Perm.refl _
          | cons y t =>
              cases hl : (y :: t).getLast? with
              | none => exact absurd (List.getLast?_eq_none_iff.mp hl) (by simp)
              | some lastRow =>
                  have h1 : eraseSwap (x :: y :: t) 0 = lastRow :: (y :: t).dropLast := by
                    unfold eraseSwap
                    rw [List.getLast?_cons_cons, hl]
                    rfl
                  rw [h1]
                  exact getLast_cons_dropLast_perm (y :: t) lastRow hl
      | succ j =>
          cases xs with
          | nil => cases h
          | cons y t =>
              rw [List.getElem?_cons_succ] at h
              cases hl : (y :: t).getLast? with
              | none => exact absurd (List.getLast?_eq_none_iff.mp hl) (by simp)
              | some lastRow =>
                  have hset : ((y :: t).set j lastRow) ≠ [] := by
                    intro hc
                    have := congrArg List.length hc
                    simp at this
                  have h1 : eraseSwap (x :: y :: t) (j + 1) =
                      x :: eraseSwap (y :: t) j := by
                    unfold eraseSwap
                    rw [List.getLast?_cons_cons, hl]
                    show ((x :: y :: t).set (j + 1) lastRow).dropLast =
                      x :: ((y :: t).set j lastRow).dropLast
                    rw [show (x :: y :: t).set (j + 1) lastRow =
                      x :: (y :: t).set j lastRow from rfl]
                    exact List.dropLast_cons_of_ne_nil hset
                  rw [h1]
                  have h2 : (x :: y :: t).eraseIdx (j + 1) =
                      x :: (y :: t).eraseIdx j := rfl
                  rw [h2]
                  exact (ih j h).cons x

theorem count_eraseIdx_of_getElem (l : List EntityId) (i : Nat) (e : EntityId)
    (h : l[i]? = some e) : (l.eraseIdx i).count e + 1 = l.count e := by
  induction l generalizing i with
  | nil => cases h
  | cons x xs ih =>
      cases i with
      | zero =>
          have hx0 : x = e := by
            rw [List.getElem?_cons_zero] at h
            exact Option.some.inj h
          subst hx0
          rw [show (x :: xs).eraseIdx 0 = xs from rfl, List.count_cons_self]
      | succ j =>
          have hj : xs[j]? = some e := by
            rw [List.getElem?_cons_succ] at h
            exact h
          rw [show (x :: xs).eraseIdx (j + 1) = x :: xs.eraseIdx j from rfl]
          by_cases hx : x = e
          · subst hx
            rw [List.count_cons_self, List.count_cons_self]
            have := ih j hj
            omega
          · rw [List.count_cons_of_ne (fun hc => hx hc.symm),
              List.count_cons_of_ne (fun hc => hx hc.symm)]
            exact ih j hj

theorem idxOfEntity_eq_none (l : List EntityId) (e : EntityId) (h : e ∉ l) :
    idxOfEntity l e = none := by
  induction l with
  | nil => rfl
  | cons x xs ih =>
      unfold idxOfEntity
      rw [if_neg (fun hc => h (by rw [← hc]; exact List.mem_cons_self x xs))]
      rw [ih (fun hm => h (List.mem_cons_of_mem x hm))]
      rfl

theorem idxOfEntity_getElem (l : List EntityId) (e : EntityId) (i : Nat)
    (h : idxOfEntity l e = some i) : l[i]? = some e := by
  induction l generalizing i with
  | nil => cases h
  | cons x xs ih =>
      unfold idxOfEntity at h
      by_cases hx : x = e
      · rw [if_pos hx] at h
        have h0 : (0 : Nat) = i := Option.some.inj h
        subst h0
        subst hx
        exact List.getElem?_cons_zero
      · rw [if_neg hx] at h
        cases hidx : idxOfEntity xs e with
        | none => rw [hidx] at h; cases h
        | some j =>
            rw [hidx] at h
            have hji : j + 1 = i := Option.some.inj h
            subst hji
            rw [List.getElem?_cons_succ]
            exact ih j hidx

theorem idxOfEntity_isSome_of_mem (l : List EntityId) (e : EntityId) (h : e ∈ l) :
    ∃ i, idxOfEntity l e = some i := by
  induction l with
  | nil => cases h
  | cons x xs ih =>
      unfold idxOfEntity
      by_cases hx : x = e
      · exact ⟨0, by rw [if_pos hx]⟩
      · have hm : e ∈ xs := by
          rcases List.mem_cons.mp h with h1 | h1
          · exact absurd h1.symm hx
          · exact h1
        obtain ⟨j, hj⟩ := ih hm
        exact ⟨j + 1, by rw [if_neg hx, hj]; rfl⟩

theorem removeEntity_not_mem (a : SArchetype) (e : EntityId)
    (hnd : a.entityIds.Nodup) : e ∉ (a.removeEntity e).entityIds := by
  by_cases hm : e ∈ a.entityIds
  · obtain ⟨i, hi⟩ := idxOfEntity_isSome_of_mem _ _ hm
    unfold SArchetype.removeEntity
    simp only [hi]
    have hg := idxOfEntity_getElem _ _ _ hi
    have hperm := eraseSwap_perm a.entityIds i e hg
    intro hmem
    have hc1 : (eraseSwap a.entityIds i).count e =
        (a.entityIds.eraseIdx i).count e := hperm.count_eq e
    have hc2 : (a.entityIds.eraseIdx i).count e + 1 = a.entityIds.count e :=
      count_eraseIdx_of_getElem _ _ _ hg
    have hc3 : a.entityIds.count e = 1 := List.count_eq_one_of_mem hnd hm
    have hc4 : (eraseSwap a.entityIds i).count e = 0 := by omega
    exact (List.count_eq_zero.mp hc4) hmem
  · unfold SArchetype.removeEntity
    simp only [idxOfEntity_eq_none _ _ hm]
    exact hm

theorem nodup_of_mem_flatten_parts {l : List EntityId} {L : List (List EntityId)}
    (hm : l ∈ L) (hnd : L.flatten.Nodup) : l.Nodup := by
  induction L with
  | nil => cases hm
  | cons x xs ih =>
      rw [List.flatten_cons] at hnd
      rcases List.mem_cons.mp hm with rfl | h1
      · exact hnd.of_append_left
      · exact ih h1 hnd.of_append_right

theorem flatten_sublist_of_sublist {α : Type} {L1 L2 : List (List α)}
    (h : L1.Sublist L2) : L1.flatten.Sublist L2.flatten := by
  induction h with
  | slnil => exact List.Sublist.refl _
  | cons a h ih => exact ih.trans (List.sublist_append_right _ _)
  | cons₂ a h ih => exact ih.append_left a

theorem visitList_sublist (archs : List SArchetype) (required : List Nat) :
    (visitList archs required).Sublist ((archs.map SArchetype.entityIds).flatten) := by
  unfold visitList
  exact flatten_sublist_of_sublist ((List.filter_sublist archs).map SArchetype.entityIds)

theorem mem_visitList {archs : List SArchetype} {required : List Nat}
    {a : SArchetype} {e : EntityId} (ha : a ∈ archs) (he : e ∈ a.entityIds)
    (hmatch : ∀ t ∈ required, t ∈ a.signature) :
    e ∈ visitList archs required := by
  unfold visitList
  rw [List.mem_flatten]
  exact ⟨a.entityIds,
    List.mem_map.mpr ⟨a, List.mem_filter.mpr ⟨ha, decide_eq_true hmatch⟩, rfl⟩, he⟩

theorem destroyOnlyCb_flatten (vs : List EntityId) (e : EntityId) :
    (vs.map (destroyOnlyCb e)).flatten =
      List.replicate (vs.count e) (Command.queueDestroy e) := by
  induction vs with
  | nil => rfl
  | cons v rest ih =>
      rw [List.map_cons, List.flatten_cons, ih]
      unfold destroyOnlyCb
      by_cases hv : v = e
      · subst hv
        rw [if_pos rfl, List.count_cons_self]
        rfl
      · rw [if_neg hv, List.count_cons_of_ne (fun hc => hv hc.symm)]
        rfl

end DSRT

namespace DSRT

/-- **C3.** Deferred structural mutation: for every callback a system
runs during a `ForEach` pass — whatever mix of `QueueCreate`,
`QueueDestroy`, `QueueAddComponent` and `QueueRemoveComponent` it issues
— no queued change is applied to any archetype until the pass returns:
every mid-pass state carries the original structural world unchanged
with the commands so far merely buffered in order, and the world the
pass returns (handed to the next system) is exactly the original world
with the full buffer applied after the last visit.  In particular an
entity whose `QueueDestroy` is issued mid-pass is still visited, exactly
once, during that pass, and only after the pass returns is it removed
from its archetype and its handle invalidated. -/
theorem deferred_structural_mutation (w : WorldData) (required : List Nat)
    (e : EntityId) (a : SArchetype)
    (hnd : ((w.archetypes.map SArchetype.entityIds).flatten).Nodup)
    (ha : a ∈ w.archetypes) (he : e ∈ a.entityIds)
    (hmatch : ∀ t ∈ required, t ∈ a.signature)
    (hlive : w.table.resolve e = .ok ()) :
    (∀ cb : EntityId → List Command, ∀ pre post,
      visitList w.archetypes required = pre ++ post →
      (pre.foldl (forEachStep cb) ⟨w, []⟩).data = w ∧
      (pre.foldl (forEachStep cb) ⟨w, []⟩).buffer = (pre.map cb).flatten) ∧
    (∀ cb : EntityId → List Command,
      (w.runForEach required cb).2 =
        (((visitList w.archetypes required).map cb).flatten).foldl
          WorldData.applyCommand w) ∧
    (w.runForEach required (destroyOnlyCb e)).1.count e = 1 ∧
    (w.runForEach required (destroyOnlyCb e)).2.table.resolve e =
      .error .staleHandle ∧
    ∀ a' ∈ (w.runForEach required (destroyOnlyCb e)).2.archetypes,
      e ∉ a'.entityIds := by
  have hvnodup : (visitList w.archetypes required).Nodup :=
    hnd.sublist (visitList_sublist w.archetypes required)
  have hmem := mem_visitList ha he hmatch
  have hcount : (visitList w.archetypes required).count e = 1 :=
    List.count_eq_one_of_mem hvnodup hmem
  have hbuf : ((visitList w.archetypes required).foldl
      (forEachStep (destroyOnlyCb e)) ⟨w, []⟩).buffer = [Command.queueDestroy e] := by
    rw [foldl_forEachStep_buffer, destroyOnlyCb_flatten, hcount]
    rfl
  have hdata : ((visitList w.archetypes required).foldl
      (forEachStep (destroyOnlyCb e)) ⟨w, []⟩).data = w :=
    foldl_forEachStep_data _ _ _
  have hfinal : (w.runForEach required (destroyOnlyCb e)).2 =
      WorldData.applyCommand w (Command.queueDestroy e) := by
    show (((visitList w.archetypes required).foldl
        (forEachStep (destroyOnlyCb e)) ⟨w, []⟩).buffer.foldl WorldData.applyCommand
      ((visitList w.archetypes required).foldl
        (forEachStep (destroyOnlyCb e)) ⟨w, []⟩).data) = _
    rw [hbuf, hdata]
    rfl
  have hdeste := EntityTable.destroy_of_live hlive
  have happly : WorldData.applyCommand w (Command.queueDestroy e) =
      ⟨⟨w.table.slots.set e.index ⟨e.generation + 1, false⟩,
          e.index :: w.table.freeList⟩,
        w.archetypes.map (fun a0 => a0.removeEntity e)⟩ := by
    unfold WorldData.applyCommand
    simp only [hdeste]
  refine ⟨?_, ?_, hcount, ?_, ?_⟩
  · intro cb pre post hsplit
    refine ⟨foldl_forEachStep_data _ _ _, ?_⟩
    rw [foldl_forEachStep_buffer]
    rw [List.nil_append]
  · intro cb
    show (((visitList w.archetypes required).foldl (forEachStep cb) ⟨w, []⟩).buffer.foldl
        WorldData.applyCommand
      ((visitList w.archetypes required).foldl (forEachStep cb) ⟨w, []⟩).data) = _
    rw [foldl_forEachStep_buffer, foldl_forEachStep_data, List.nil_append]
  · rw [hfinal, happly]
    exact (EntityTable.destroy_stale hdeste).resolve_fails
  · rw [hfinal, happly]
    intro a' ha'
    obtain ⟨a0, ha0, rfl⟩ := List.mem_map.mp ha'
    have hpart : a0.entityIds.Nodup :=
      nodup_of_mem_flatten_parts (List.mem_map.mpr ⟨a0, ha0, rfl⟩) hnd
    exact removeEntity_not_mem a0 e hpart

/-- Witness for **C3**: one live entity `(0,0)` in the empty-signature
archetype; a `ForEach` over no required components.  A callback queueing
an add-component is flushed only onto the original post-pass world, and
the destroy-queueing callback visits the entity exactly once, after which
it resolves stale and sits in no archetype. -/
theorem deferred_structural_mutation_witness :
    ((WorldData.runForEach ⟨⟨[⟨0, true⟩], []⟩, [⟨[], [⟨0, 0⟩]⟩]⟩ []
        (fun x => [Command.queueAddComponent x 5])).2 =
      ((((visitList [⟨[], [⟨0, 0⟩]⟩] []).map
          (fun x => [Command.queueAddComponent x 5])).flatten).foldl
        WorldData.applyCommand ⟨⟨[⟨0, true⟩], []⟩, [⟨[], [⟨0, 0⟩]⟩]⟩)) ∧
    ((WorldData.runForEach ⟨⟨[⟨0, true⟩], []⟩, [⟨[], [⟨0, 0⟩]⟩]⟩ []
        (destroyOnlyCb ⟨0, 0⟩)).1.count ⟨0, 0⟩ = 1) ∧
    ((WorldData.runForEach ⟨⟨[⟨0, true⟩], []⟩, [⟨[], [⟨0, 0⟩]⟩]⟩ []
        (destroyOnlyCb ⟨0, 0⟩)).2.table.resolve ⟨0, 0⟩ = .error .staleHandle) ∧
    (∀ a' ∈ (WorldData.runForEach ⟨⟨[⟨0, true⟩], []⟩, [⟨[], [⟨0, 0⟩]⟩]⟩ []
        (destroyOnlyCb ⟨0, 0⟩)).2.archetypes, (⟨0, 0⟩ : EntityId) ∉ a'.entityIds) := by
  have h := deferred_structural_mutation ⟨⟨[⟨0, true⟩], []⟩, [⟨[], [⟨0, 0⟩]⟩]⟩ []
    ⟨0, 0⟩ ⟨[], [⟨0, 0⟩]⟩ (by decide) (by decide) (by decide) (by simp) rfl
  exact ⟨h.2.1 (fun x => [Command.queueAddComponent x 5]),
    h.2.2.1, h.2.2.2.1, h.2.2.2.2⟩

end DSRT
